import Mathlib

/-!
Verification of the path-resolution core of the `caseproxy` repository
(`src/lib.rs`), shallowly embedded in Lean.

Conventions of the embedding:
* OS-native byte strings (`OsStr`) are `List Nat` of byte values (< 256).
* Unicode scalar values are `Nat`.
* Rust panics (`unreachable!()`) are modelled as `none` of an `Option`.
* `Path` values are modelled at the component level (`List Component`),
  mirroring `std::path::Component` on Unix; the byte-level parser
  `pathComponents` models `Path::components()`.
-/

/-- Type `CharOrByte` from `src/lib.rs`: either one decoded Unicode scalar value or
one raw byte that could not be decoded at its position. -/
inductive CharOrByte where
  | char (c : Nat)
  | byte (b : Nat)
deriving DecidableEq, Repr

/-- The leading-byte length computation of `osstr_chars` (`src/lib.rs`
lines 284-294), including its actual branch order: any byte with the top two
bits set takes the `2` branch, and bytes of the form `10xxxxxx` fall through
to `unreachable!()`, modelled as `none`. -/
def utf8CharLen (b : Nat) : Option Nat :=
  if b &&& 0x80 == 0 then some 1
  else if b &&& 0xC0 == 0xC0 then some 2
  else if b &&& 0xE0 == 0xE0 then some 3
  else if b &&& 0xF0 == 0xF0 then some 4
  else none

/-- Is `b` a UTF-8 continuation byte (`10xxxxxx`)? -/
def isCont (b : Nat) : Bool := 0x80 ≤ b && b ≤ 0xBF

/-- Models `std::str::from_utf8` on a slice of one to four bytes followed by
`.chars().next()`: `some c` exactly when the slice is a valid (shortest-form,
non-surrogate) UTF-8 encoding of the single scalar value `c`. -/
def decodeUtf8 : List Nat → Option Nat
  | [b] => if b ≤ 0x7F then some b else none
  | [b0, b1] =>
      if 0xC2 ≤ b0 && b0 ≤ 0xDF && isCont b1 then
        some ((b0 - 0xC0) * 64 + (b1 - 0x80))
      else none
  | [b0, b1, b2] =>
      if ((b0 == 0xE0 && 0xA0 ≤ b1 && b1 ≤ 0xBF) ||
          ((0xE1 ≤ b0 && b0 ≤ 0xEC || b0 == 0xEE || b0 == 0xEF) && isCont b1) ||
          (b0 == 0xED && 0x80 ≤ b1 && b1 ≤ 0x9F)) && isCont b2 then
        some ((b0 - 0xE0) * 4096 + (b1 - 0x80) * 64 + (b2 - 0x80))
      else none
  | [b0, b1, b2, b3] =>
      if ((b0 == 0xF0 && 0x90 ≤ b1 && b1 ≤ 0xBF) ||
          (0xF1 ≤ b0 && b0 ≤ 0xF3 && isCont b1) ||
          (b0 == 0xF4 && 0x80 ≤ b1 && b1 ≤ 0x8F)) && isCont b2 && isCont b3 then
        some ((b0 - 0xF0) * 262144 + (b1 - 0x80) * 4096 + (b2 - 0x80) * 64 + (b3 - 0x80))
      else none
  | _ => none

/-- Function `osstr_chars` from `src/lib.rs` (lines 276-310): scan left to right; the
leading byte picks a slice length via `utf8CharLen`; if a panic branch is hit
the whole scan is `none`; if the slice is unavailable or fails to decode, the
single leading byte is emitted raw and the scan advances by one; otherwise the
decoded scalar value is emitted and the scan advances by the slice length.
The recursion is written out per slice length, and driven by an explicit
iteration bound (`osstr_chars_go`) so the definition is structural (hence
computable by `decide`/`rfl`) while still admitting equation lemmas; each arm
matches the source's `index + charLen > str.len()` availability check and
`from_utf8` call, and the bound never runs out (see
`osstr_chars_go_adequate`). -/
def osstr_chars_go : Nat → List Nat → Option (List CharOrByte)
  | _, [] => some []
  | 0, _ :: _ => none
  | fuel + 1, b :: rest =>
    match utf8CharLen b with
    | none => none
    | some 1 =>
      match decodeUtf8 [b] with
      | some c => (osstr_chars_go fuel rest).map (CharOrByte.char c :: ·)
      | none => (osstr_chars_go fuel rest).map (CharOrByte.byte b :: ·)
    | some 2 =>
      match rest with
      | r1 :: rest2 =>
        match decodeUtf8 [b, r1] with
        | some c => (osstr_chars_go fuel rest2).map (CharOrByte.char c :: ·)
        | none => (osstr_chars_go fuel (r1 :: rest2)).map (CharOrByte.byte b :: ·)
      | [] => (osstr_chars_go fuel []).map (CharOrByte.byte b :: ·)
    | some 3 =>
      match rest with
      | r1 :: r2 :: rest3 =>
        match decodeUtf8 [b, r1, r2] with
        | some c => (osstr_chars_go fuel rest3).map (CharOrByte.char c :: ·)
        | none => (osstr_chars_go fuel (r1 :: r2 :: rest3)).map (CharOrByte.byte b :: ·)
      | rest' => (osstr_chars_go fuel rest').map (CharOrByte.byte b :: ·)
    | some 4 =>
      match rest with
      | r1 :: r2 :: r3 :: rest4 =>
        match decodeUtf8 [b, r1, r2, r3] with
        | some c => (osstr_chars_go fuel rest4).map (CharOrByte.char c :: ·)
        | none => (osstr_chars_go fuel (r1 :: r2 :: r3 :: rest4)).map (CharOrByte.byte b :: ·)
      | rest' => (osstr_chars_go fuel rest').map (CharOrByte.byte b :: ·)
    | some _ => none

/-- Function `osstr_chars` itself: the scan with its (always adequate) iteration
bound. -/
def osstr_chars (l : List Nat) : Option (List CharOrByte) :=
  osstr_chars_go l.length l

/-- The iteration bound is irrelevant as long as it is at least the number
of remaining bytes (every iteration consumes at least one byte), so the
fuel-exhaustion arm of `osstr_chars_go` is unreachable from `osstr_chars`.
-/
theorem osstr_chars_go_adequate :
    ∀ (fuel fuel' : Nat) (l : List Nat), l.length ≤ fuel → l.length ≤ fuel' →
      osstr_chars_go fuel l = osstr_chars_go fuel' l := by
  intro fuel
  induction fuel with
  | zero =>
    intro fuel' l h _
    rw [Nat.le_zero, List.length_eq_zero] at h
    subst h
    cases fuel' <;> rfl
  | succ n ih =>
    intro fuel' l h h'
    cases l with
    | nil => cases fuel' <;> rfl
    | cons b rest =>
      cases fuel' with
      | zero => simp at h'
      | succ n' =>
        simp only [List.length_cons, Nat.succ_le_succ_iff] at h h'
        simp only [osstr_chars_go]
        cases utf8CharLen b with
        | none => rfl
        | some k =>
          match k with
          | 1 =>
            cases decodeUtf8 [b] <;> simp only [ih n' rest h h']
          | 2 =>
            cases rest with
            | nil => simp only [ih n' [] (by simp) (by simp)]
            | cons r1 rest2 =>
              simp only [List.length_cons] at h h'
              simp only [ih n' rest2 (by omega) (by omega),
                ih n' (r1 :: rest2) (by simp only [List.length_cons]; omega)
                  (by simp only [List.length_cons]; omega)]
          | 3 =>
            cases rest with
            | nil => simp only [ih n' [] (by simp) (by simp)]
            | cons r1 rest2 =>
              simp only [List.length_cons] at h h'
              cases rest2 with
              | nil =>
                simp only [ih n' [r1]
                  (by simp only [List.length_cons, List.length_nil]; omega)
                  (by simp only [List.length_cons, List.length_nil]; omega)]
              | cons r2 rest3 =>
                simp only [List.length_cons] at h h'
                simp only [ih n' rest3 (by omega) (by omega),
                  ih n' (r1 :: r2 :: rest3) (by simp only [List.length_cons]; omega)
                    (by simp only [List.length_cons]; omega)]
          | 4 =>
            cases rest with
            | nil => simp only [ih n' [] (by simp) (by simp)]
            | cons r1 rest2 =>
              simp only [List.length_cons] at h h'
              cases rest2 with
              | nil =>
                simp only [ih n' [r1]
                  (by simp only [List.length_cons, List.length_nil]; omega)
                  (by simp only [List.length_cons, List.length_nil]; omega)]
              | cons r2 rest3 =>
                simp only [List.length_cons] at h h'
                cases rest3 with
                | nil =>
                  simp only [ih n' [r1, r2]
                    (by simp only [List.length_cons, List.length_nil]; omega)
                    (by simp only [List.length_cons, List.length_nil]; omega)]
                | cons r3 rest4 =>
                  simp only [List.length_cons] at h h'
                  simp only [ih n' rest4 (by omega) (by omega),
                    ih n' (r1 :: r2 :: r3 :: rest4)
                      (by simp only [List.length_cons]; omega)
                      (by simp only [List.length_cons]; omega)]
          | 0 => rfl
          | (m + 5) => rfl

/-- Models Rust `char::to_lowercase` restricted to the ASCII and Latin-1
ranges plus `U+0178`/`U+039C` (the scalars reachable from those ranges by
`char::to_uppercase`); every other scalar value maps to itself. -/
def char_to_lowercase (c : Nat) : List Nat :=
  if 0x41 ≤ c && c ≤ 0x5A then [c + 0x20]
  else if (0xC0 ≤ c && c ≤ 0xDE) && c != 0xD7 then [c + 0x20]
  else if c == 0x178 then [0xFF]
  else if c == 0x39C then [0x3BC]
  else [c]

/-- Models Rust `char::to_uppercase` restricted to ASCII and Latin-1
(including the one-to-many expansion `ß → SS` and the exceptional mappings
`µ → U+039C`, `ÿ → U+0178`); every other scalar value maps to itself. -/
def char_to_uppercase (c : Nat) : List Nat :=
  if 0x61 ≤ c && c ≤ 0x7A then [c - 0x20]
  else if c == 0xB5 then [0x39C]
  else if c == 0xDF then [0x53, 0x53]
  else if (0xE0 ≤ c && c ≤ 0xFE) && c != 0xF7 then [c - 0x20]
  else if c == 0xFF then [0x178]
  else [c]

/-- The per-unit case folding of `osstr_chars_lowercased`: chars are expanded
through `char::to_lowercase`, raw bytes pass through unchanged. -/
def fold_unit : CharOrByte → List CharOrByte
  | CharOrByte.char c => (char_to_lowercase c).map CharOrByte.char
  | CharOrByte.byte b => [CharOrByte.byte b]

/-- Function `osstr_chars_lowercased` from `src/lib.rs` (lines 312-319): the decomposed
unit stream with every decoded scalar value flat-mapped through
`to_lowercase`. `none` models the panic propagating out of `osstr_chars`. -/
def osstr_chars_lowercased (s : List Nat) : Option (List CharOrByte) :=
  (osstr_chars s).map (·.flatMap fold_unit)

/-- Generic lexicographic list comparison with shorter-lists-first, matching
the shared loop shape of `compare_osstr_case_insensitive` and
`impl Ord for InsensitivePath`: `(None, Some) → Less`, `(Some, None) →
Greater`, `(None, None) → Equal`, otherwise compare heads and continue on
`Equal`. -/
def listCmp (f : α → α → Ordering) : List α → List α → Ordering
  | [], [] => .eq
  | [], _ :: _ => .lt
  | _ :: _, [] => .gt
  | x :: xs, y :: ys =>
    match f x y with
    | .eq => listCmp f xs ys
    | o => o

/-- The per-unit comparison of `compare_osstr_case_insensitive`
(`src/lib.rs` lines 363-385): chars by scalar value, bytes by value, and the
tie-break that any decoded char sorts before any raw byte. -/
def unitCmp : CharOrByte → CharOrByte → Ordering
  | CharOrByte.char l, CharOrByte.char r => compare l r
  | CharOrByte.byte l, CharOrByte.byte r => compare l r
  | CharOrByte.char _, CharOrByte.byte _ => .lt
  | CharOrByte.byte _, CharOrByte.char _ => .gt

/-- Function `compare_osstr_case_insensitive` from `src/lib.rs` (lines 354-388):
lexicographic comparison of the two case-folded unit streams. The source
pulls units lazily; this embedding decomposes both strings up front, which
agrees with the source whenever both decompositions succeed, and whenever the
compared prefixes are panic-free (all theorems below stay within that
agreement). `none` models a propagated panic. -/
def compare_osstr_case_insensitive (a b : List Nat) : Option Ordering := do
  let la ← osstr_chars_lowercased a
  let lb ← osstr_chars_lowercased b
  pure (listCmp unitCmp la lb)

/-- Type `std::path::Component` on Unix (no `Prefix` variant), with the derived
order `RootDir < CurDir < ParentDir < Normal`. -/
inductive Component where
  | rootDir
  | curDir
  | parentDir
  | normal (name : List Nat)
deriving DecidableEq, Repr

/-- The discriminant rank of the derived `Ord` on `std::path::Component`. -/
def componentRank : Component → Nat
  | .rootDir => 0
  | .curDir => 1
  | .parentDir => 2
  | .normal _ => 3

/-- The derived (literal, case-sensitive) `Ord` on `std::path::Component`:
discriminant order first, `Normal` names by byte-wise lexicographic order. -/
def componentLiteralCmp : Component → Component → Ordering
  | .normal a, .normal b => listCmp compare a b
  | l, r => compare (componentRank l) (componentRank r)

/-- One component pair of `impl Ord for InsensitivePath` (`src/lib.rs`
lines 112-127): two `Normal` components compare case-insensitively, any other
pair falls back to the components' own literal ordering. -/
def componentCmp : Component → Component → Option Ordering
  | .normal a, .normal b => compare_osstr_case_insensitive a b
  | l, r => some (componentLiteralCmp l r)

/-- The `impl Ord for InsensitivePath` (`src/lib.rs` lines 101-131): walk both
component lists pairwise; exhaustion of one list decides; otherwise compare
the pair and stop at the first non-`Equal` result. -/
def insensitiveCmp : List Component → List Component → Option Ordering
  | [], [] => some .eq
  | [], _ :: _ => some .lt
  | _ :: _, [] => some .gt
  | l :: ls, r :: rs => do
    let o ← componentCmp l r
    if o = .eq then insensitiveCmp ls rs else pure o

/-- One value written to the `Hasher` by `impl Hash for InsensitivePath`:
`write_u32(char as u32)` or `write_u8(byte)`. -/
inductive HashUnit where
  | u32 (v : Nat)
  | u8 (v : Nat)
deriving DecidableEq, Repr

/-- The `impl Hash for InsensitivePath` (`src/lib.rs` lines 133-142): the stream
of values fed to the hasher — the case-folded unit stream of the *whole* path
byte string (`self.0.as_os_str()`, separators included), chars as `u32`
writes and raw bytes as `u8` writes. -/
def insensitiveHashStream (pathBytes : List Nat) : Option (List HashUnit) :=
  (osstr_chars_lowercased pathBytes).map (List.map fun u =>
    match u with
    | CharOrByte.char c => HashUnit.u32 c
    | CharOrByte.byte b => HashUnit.u8 b)

/-- Split a byte string on `/` (byte `0x2F`); separators are dropped. -/
def splitOnSlash : List Nat → List (List Nat)
  | [] => [[]]
  | b :: rest =>
    let r := splitOnSlash rest
    if b == 0x2F then [] :: r
    else (b :: r.headD []) :: r.tailD []

/-- Map one non-leading raw path part to its component: `.` parts are
normalized away, `..` is a parent-directory marker, anything else is a
`Normal` segment. -/
def mkTailComponent (p : List Nat) : Option Component :=
  if p = [0x2E] then none
  else if p = [0x2E, 0x2E] then some .parentDir
  else some (.normal p)

/-- Models `std::path::Path::components()` on Unix: a leading `/` becomes
`RootDir`; empty parts are skipped; `.` parts are normalized away except a
leading `.` of a relative path, which becomes `CurDir`; `..` is `ParentDir`.
-/
def pathComponents (bytes : List Nat) : List Component :=
  let parts := (splitOnSlash bytes).filter (fun p => decide (p ≠ []))
  if bytes.head? = some 0x2F then
    .rootDir :: parts.filterMap mkTailComponent
  else
    match parts with
    | [] => []
    | p :: rest =>
      if p = [0x2E] then .curDir :: rest.filterMap mkTailComponent
      else (p :: rest).filterMap mkTailComponent

/-- Models `Path::strip_prefix` at the component level (used by
`find_matching_files`, `src/lib.rs` line 21): succeeds with the remaining
components exactly when the root's components are a literal (byte-for-byte,
case-sensitive) prefix of the target's components. -/
def strip_prefix : List Component → List Component → Option (List Component)
  | p, [] => some p
  | [], _ :: _ => none
  | c :: cs, r :: rs => if c = r then strip_prefix cs rs else none

/-- Models `PathBuf::pop` at the component level: removing the last component, a
no-op on a bare root and on the empty path. -/
def pathPop (res : List Component) : List Component :=
  if res = [.rootDir] then res else res.dropLast

/-- One iteration of the `resolve_parents` loop (`src/lib.rs` lines 404-414):
a parent-directory marker pops the accumulated result unless that result is
exactly `/` or exactly `.`; every other case (including a parent marker with
the result at `/` or `.`) pushes the component. -/
def resolveParentsStep (res : List Component) (c : Component) : List Component :=
  if c = .parentDir ∧ res ≠ [.rootDir] ∧ res ≠ [.curDir] then pathPop res
  else res ++ [c]

/-- Function `resolve_parents` from `src/lib.rs` (lines 402-416), at the component
level. -/
def resolve_parents (p : List Component) : List Component :=
  p.foldl resolveParentsStep []

/-- One directory entry as reported by `read_dir`: its file name and whether
`file_type()` says it is a directory. -/
structure DirEntry where
  name : List Nat
  isDir : Bool
deriving DecidableEq, Repr

/-- A model filesystem: the directory-listing primitive. `none` models an
I/O failure (unreadable, vanished, or not a directory). -/
def Fs : Type := List Component → Option (List DirEntry)

/-- Outcome of one `find_matching_files` invocation. `panicked` models a
propagated decomposer panic, `headErr` the
"head of remaining path components is unexpectedly ..." error
(`src/lib.rs` line 31), `notUnderRoot` a `strip_prefix` failure, and
`outOfFuel` an artefact of the bounded loop model (never hit at adequate
fuel). -/
inductive FindResult where
  | ok (found : List (List Component))
  | notUnderRoot
  | ioError
  | headErr
  | panicked
  | outOfFuel
deriving DecidableEq, Repr

/-- The leaf arm of the `find_matching_files` loop (`src/lib.rs` lines
45-53): every entry (file or directory) whose name compares case-insensitively
equal to the head is collected, in listing order. `none` models a panic from
the comparator. -/
def collectLeafMatches (entries : List DirEntry) (head : List Nat) :
    Option (List (List Nat)) :=
  match entries with
  | [] => some []
  | e :: rest => do
    let o ← compare_osstr_case_insensitive e.name head
    let ms ← collectLeafMatches rest head
    if o = .eq then pure (e.name :: ms) else pure ms

/-- The intermediate-directory arm of the loop (`src/lib.rs` lines 56-67):
non-directories are skipped before comparing; directory entries whose names
compare case-insensitively equal to the head are collected in listing order.
-/
def collectDirMatches (entries : List DirEntry) (head : List Nat) :
    Option (List (List Nat)) :=
  match entries with
  | [] => some []
  | e :: rest =>
    if e.isDir then do
      let o ← compare_osstr_case_insensitive e.name head
      let ms ← collectDirMatches rest head
      if o = .eq then pure (e.name :: ms) else pure ms
    else collectDirMatches rest head

/-- The `while let Some(..) = queue.pop_front()` loop of
`find_matching_files` (`src/lib.rs` lines 25-69). Queue items are pairs of
(confirmed concrete prefix, remaining components); `acc` is the accumulated
match list. `fuel` bounds the number of iterations; every loop result is
independent of any fuel large enough to drain the queue. -/
def findLoop (fs : Fs) (root : List Component) :
    Nat → List (List Component × List Component) → List (List Component) →
    FindResult
  | 0, _, _ => .outOfFuel
  | _ + 1, [], acc => .ok acc
  | fuel + 1, (pre, remaining) :: queue, acc =>
    match remaining with
    | .normal head :: tail =>
      match fs (root ++ pre) with
      | none => .ioError
      | some entries =>
        if tail = [] then
          match collectLeafMatches entries head with
          | none => .panicked
          | some names =>
            findLoop fs root fuel queue
              (acc ++ names.map fun n => root ++ pre ++ [Component.normal n])
        else
          match collectDirMatches entries head with
          | none => .panicked
          | some names =>
            findLoop fs root fuel
              (queue ++ names.map fun n => (pre ++ [Component.normal n], tail))
              acc
    | _ => .headErr

/-- Function `InsensitivePath::find_matching_files` (`src/lib.rs` lines 12-72): the
root defaults to `.`; when the root is `.` the target is taken whole,
otherwise the root is stripped as a literal prefix (`NotUnderRoot` on
failure); then the breadth-expanding queue search runs. -/
def find_matching_files (fs : Fs) (target : List Component)
    (rootOpt : Option (List Component)) (fuel : Nat) : FindResult :=
  let root := rootOpt.getD [.curDir]
  let remaining? :=
    if root = [.curDir] then some target else strip_prefix target root
  match remaining? with
  | none => .notUnderRoot
  | some remaining => findLoop fs root fuel [([], remaining)] []

/-- Byte list of an ASCII string literal (for ASCII, code points coincide
with the single UTF-8 byte; non-ASCII inputs are written as explicit byte
lists instead). -/
def bytesOf (s : String) : List Nat := s.toList.map Char.toNat

/-- UTF-8 encoding of one Unicode scalar value. -/
def utf8EncodeChar (c : Nat) : List Nat :=
  if c < 0x80 then [c]
  else if c < 0x800 then [0xC0 + c / 64, 0x80 + c % 64]
  else if c < 0x10000 then [0xE0 + c / 4096, 0x80 + c / 64 % 64, 0x80 + c % 64]
  else [0xF0 + c / 262144, 0x80 + c / 4096 % 64, 0x80 + c / 64 % 64, 0x80 + c % 64]

/-- UTF-8 encoding of a sequence of scalar values. -/
def utf8Encode (s : List Nat) : List Nat := s.flatMap utf8EncodeChar

/-- Models `str::to_lowercase` of a sequence of scalar values, as the concatenation
of the per-char mappings (the modelled subset has no context-dependent
mapping). -/
def toLowerString (s : List Nat) : List Nat := s.flatMap char_to_lowercase

/-- Models `str::to_uppercase` of a sequence of scalar values, as the concatenation
of the per-char mappings. -/
def toUpperString (s : List Nat) : List Nat := s.flatMap char_to_uppercase

/-- C1: the case-insensitive order considers the paths `"foo/"` and `"foo"`
equal (their component lists both parse to the single component `foo`), yet
the hash streams fed to the hasher differ, because `Hash` feeds the whole
path byte string, separator bytes included: the stream for `"foo/"` carries a
trailing `u32 '/'` write that the stream for `"foo"` lacks. This contradicts
the equal-order-implies-equal-hash invariant the claim states (and that
Rust's `Hash`/`Eq` contract and the `HashMap<InsensitivePath, _>` use in
`src/bin/dupe-finder.rs` require). -/
theorem C1_hash_eq_inconsistent :
    insensitiveCmp (pathComponents (bytesOf "foo/")) (pathComponents (bytesOf "foo")) =
      some Ordering.eq ∧
    insensitiveHashStream (bytesOf "foo/") ≠ insensitiveHashStream (bytesOf "foo") := by
  constructor
  · rfl
  · decide

/-- C2: the decomposer is not total — a lone continuation byte (`0x80`) in
head position, and equally the valid three-byte encoding of `中`
(`E4 B8 AD`), drive the scan into the `unreachable!()` branch (modelled as
`none`), i.e. the code panics instead of degrading to byte-wise units. -/
theorem C2_decomposer_panics :
    osstr_chars [0x80] = none ∧ osstr_chars [0xE4, 0xB8, 0xAD] = none := by
  constructor <;> rfl

/-- C3: `resolve_parents` pushes the parent-directory marker instead of
treating it as a no-op when the accumulated result is a bare root or bare
current-directory marker: `"/a/../.."` normalizes to `"/.."` (not `"/"`)
and `"./a/../.."` to `"./.."` (not `"."`); only the bare-relative case
`"a/../.."` gives the claimed `""`. This contradicts the spec and the
repository's own `test_resolve_parents` expectations. -/
theorem C3_normalizer_escapes_root :
    resolve_parents (pathComponents (bytesOf "/a/../..")) =
      [Component.rootDir, Component.parentDir] ∧
    resolve_parents (pathComponents (bytesOf "./a/../..")) =
      [Component.curDir, Component.parentDir] ∧
    resolve_parents (pathComponents (bytesOf "a/../..")) = [] := by
  refine ⟨rfl, rfl, rfl⟩

/-- C4: the per-position step is wrong for 3- and 4-byte encodings: the
branch order of the leading-byte test makes any lead byte with the top two
bits set (including `1110xxxx` and `11110xxx`) report an expected length of
2, so the valid three-byte character `中` (`E4 B8 AD`, scalar `U+4E2D`),
which `decodeUtf8` confirms is a well-formed encoding, is never emitted as
its decoded scalar value — the scan instead emits the lead byte raw and then
panics on the continuation byte. -/
theorem C4_step_wrong_for_long_encodings :
    utf8CharLen 0xE4 = some 2 ∧ utf8CharLen 0xF0 = some 2 ∧
    decodeUtf8 [0xE4, 0xB8, 0xAD] = some 0x4E2D ∧
    osstr_chars [0xE4, 0xB8, 0xAD] ≠ some [CharOrByte.char 0x4E2D] := by
  refine ⟨rfl, rfl, rfl, by decide⟩

/-- The root directory used by the concrete resolver scenarios. -/
def rootC : List Component := [Component.normal (bytesOf "root")]

/-- A file entry of the concrete scenarios. -/
def entF (s : String) : DirEntry := ⟨bytesOf s, false⟩

/-- A directory entry of the concrete scenarios. -/
def entD (s : String) : DirEntry := ⟨bytesOf s, true⟩

/-- Scenario tree of `test_insensitive_path_searching` after the sibling
step: one directory holding `normal.txt`, `abc.txt` and `Abc.txt`. -/
def fsSiblings : Fs := fun p =>
  if p = rootC then some [entF "normal.txt", entF "abc.txt", entF "Abc.txt"]
  else none

/-- Scenario tree holding only `normal.txt`. -/
def fsSingle : Fs := fun p =>
  if p = rootC then some [entF "normal.txt"] else none

/-- The nested scenario tree of `test_insensitive_path_searching`: casing
collisions at two directory depths (`deeply/{nested,Nested}/{abc,Abc}.txt`).
-/
def fsNested : Fs := fun p =>
  if p = rootC then some [entD "deeply"]
  else if p = rootC ++ [Component.normal (bytesOf "deeply")] then
    some [entD "nested", entD "Nested"]
  else if p = rootC ++ [Component.normal (bytesOf "deeply"),
      Component.normal (bytesOf "nested")] then
    some [entF "abc.txt", entF "Abc.txt"]
  else if p = rootC ++ [Component.normal (bytesOf "deeply"),
      Component.normal (bytesOf "Nested")] then
    some [entF "abc.txt", entF "Abc.txt"]
  else none

/-- C6: resolver match-set correctness on the source-derived scenarios: the
sibling pair `abc.txt`/`Abc.txt` is returned in full (and `normal.txt` is
not); the tree holding only `normal.txt` yields exactly that path; and with
casing collisions at two directory depths the full cross-product of the four
matching concrete paths is returned. -/
theorem C6_match_sets :
    find_matching_files fsSiblings
      (rootC ++ [Component.normal (bytesOf "abc.txt")]) (some rootC) 10 =
      FindResult.ok
        [rootC ++ [Component.normal (bytesOf "abc.txt")],
         rootC ++ [Component.normal (bytesOf "Abc.txt")]] ∧
    find_matching_files fsSingle
      (rootC ++ [Component.normal (bytesOf "normal.txt")]) (some rootC) 10 =
      FindResult.ok [rootC ++ [Component.normal (bytesOf "normal.txt")]] ∧
    find_matching_files fsNested
      (rootC ++ [Component.normal (bytesOf "Deeply"),
        Component.normal (bytesOf "Nested"),
        Component.normal (bytesOf "abc.txt")]) (some rootC) 10 =
      FindResult.ok
        [rootC ++ [Component.normal (bytesOf "deeply"),
          Component.normal (bytesOf "nested"),
          Component.normal (bytesOf "abc.txt")],
         rootC ++ [Component.normal (bytesOf "deeply"),
          Component.normal (bytesOf "nested"),
          Component.normal (bytesOf "Abc.txt")],
         rootC ++ [Component.normal (bytesOf "deeply"),
          Component.normal (bytesOf "Nested"),
          Component.normal (bytesOf "abc.txt")],
         rootC ++ [Component.normal (bytesOf "deeply"),
          Component.normal (bytesOf "Nested"),
          Component.normal (bytesOf "Abc.txt")]] := by
  refine ⟨rfl, rfl, rfl⟩

/-- The queue loop itself never produces the not-under-root outcome; that
error can only arise from the prefix strip before the loop starts. -/
theorem findLoop_ne_notUnderRoot (fs : Fs) (root : List Component) :
    ∀ fuel queue acc, findLoop fs root fuel queue acc ≠ FindResult.notUnderRoot := by
  intro fuel
  induction fuel with
  | zero => intro queue acc; simp [findLoop]
  | succ n ih =>
    intro queue acc
    match queue with
    | [] => simp [findLoop]
    | (pre, remaining) :: queue' =>
      cases remaining with
      | nil => simp [findLoop]
      | cons c tail =>
        cases c with
        | rootDir => simp [findLoop]
        | curDir => simp [findLoop]
        | parentDir => simp [findLoop]
        | normal head =>
          simp only [findLoop]
          cases hfs : fs (root ++ pre) with
          | none => simp
          | some entries =>
            by_cases ht : tail = []
            · simp only [ht, if_pos]
              cases collectLeafMatches entries head with
              | none => simp
              | some names => exact ih _ _
            · simp only [if_neg ht]
              cases collectDirMatches entries head with
              | none => simp
              | some names => exact ih _ _

/-- An empty current directory, for the root-`.` scenario. -/
def fsDot : Fs := fun p => if p = [Component.curDir] then some [] else none

/-- C5 counterexample: with the root passed as `.` and the target `x`, the
root is *not* a literal path prefix of the target (`strip_prefix` fails),
yet `find_matching_files` does not fail with `NotUnderRoot` — the code skips
the strip entirely whenever the root equals `.` and resolves the target as
given, here returning an empty match set. -/
theorem C5_counterexample_dot_root :
    strip_prefix [Component.normal (bytesOf "x")] [Component.curDir] = none ∧
    find_matching_files fsDot [Component.normal (bytesOf "x")]
      (some [Component.curDir]) 3 = FindResult.ok [] := by
  refine ⟨rfl, rfl⟩

/-- C5 amended: for a root other than `.`, resolution fails with
`NotUnderRoot` exactly when the root's components are not a literal
(byte-for-byte, case-sensitive, pre-folding) prefix of the target's; when the
root is omitted (defaulting to `.`) — and likewise when it is passed as `.`,
see the counterexample — the strip is skipped and `NotUnderRoot` never
occurs. -/
theorem C5_not_under_root_iff :
    (∀ (fs : Fs) (target root : List Component) (fuel : Nat),
      root ≠ [Component.curDir] →
      (find_matching_files fs target (some root) fuel = FindResult.notUnderRoot ↔
        strip_prefix target root = none)) ∧
    (∀ (fs : Fs) (target : List Component) (fuel : Nat),
      find_matching_files fs target none fuel ≠ FindResult.notUnderRoot) := by
  constructor
  · intro fs target root fuel h
    simp only [find_matching_files, Option.getD_some, if_neg h]
    cases hs : strip_prefix target root with
    | none => simp
    | some rem =>
      simpa using findLoop_ne_notUnderRoot fs root fuel [([], rem)] []
  · intro fs target fuel
    simp only [find_matching_files, Option.getD_none, if_pos rfl]
    exact findLoop_ne_notUnderRoot fs [Component.curDir] fuel [([], target)] []

/-- C5 witness: instantiating the amended statement at the sibling-scenario
root (which is not `.`) and the target `x`. -/
theorem C5_witness :
    find_matching_files fsSiblings [Component.normal (bytesOf "x")] (some rootC) 3 =
      FindResult.notUnderRoot ↔
    strip_prefix [Component.normal (bytesOf "x")] rootC = none :=
  C5_not_under_root_iff.1 fsSiblings [Component.normal (bytesOf "x")] rootC 3
    (by decide)

/-- Loop invariant for C10: if every already-accumulated match extends the
root, then so does every match in a successful final result — each emitted
match is literally `root ++ confirmed-prefix ++ [entry name]`. -/
theorem findLoop_ok_prefix (fs : Fs) (root : List Component) :
    ∀ fuel queue acc ms, findLoop fs root fuel queue acc = FindResult.ok ms →
      (∀ m ∈ acc, root <+: m) → ∀ m ∈ ms, root <+: m := by
  intro fuel
  induction fuel with
  | zero => intro queue acc ms h; simp [findLoop] at h
  | succ n ih =>
    intro queue acc ms h hacc
    match queue with
    | [] =>
      simp only [findLoop, FindResult.ok.injEq] at h
      exact h ▸ hacc
    | (pre, remaining) :: queue' =>
      cases remaining with
      | nil => simp [findLoop] at h
      | cons c tail =>
        cases c with
        | rootDir => simp [findLoop] at h
        | curDir => simp [findLoop] at h
        | parentDir => simp [findLoop] at h
        | normal head =>
          simp only [findLoop] at h
          split at h
          · cases h
          · split at h
            · split at h
              · cases h
              · refine ih _ _ _ h ?_
                intro m hm
                rcases List.mem_append.1 hm with hma | hmn
                · exact hacc m hma
                · rcases List.mem_map.1 hmn with ⟨nm, _, rfl⟩
                  rw [List.append_assoc]
                  exact List.prefix_append root (pre ++ [Component.normal nm])
            · split at h
              · cases h
              · exact ih _ _ _ h hacc

/-- C10: every path in the match set of a successful resolution has the root
directory — or `.` when no root is given — as a literal path prefix, since
each emitted match is the root joined with the confirmed prefix and the
discovered entry's real name. -/
theorem C10_matches_under_root (fs : Fs) (target : List Component)
    (rootOpt : Option (List Component)) (fuel : Nat) (ms : List (List Component))
    (h : find_matching_files fs target rootOpt fuel = FindResult.ok ms) :
    ∀ m ∈ ms, rootOpt.getD [Component.curDir] <+: m := by
  simp only [find_matching_files] at h
  cases hs : (if rootOpt.getD [Component.curDir] = [Component.curDir] then some target
      else strip_prefix target (rootOpt.getD [Component.curDir])) with
  | none => rw [hs] at h; cases h
  | some rem =>
    rw [hs] at h
    exact findLoop_ok_prefix fs _ fuel _ _ ms h (by simp)

/-- C10 witness: the single-file scenario instantiated concretely at its one
match. -/
theorem C10_witness :
    (some rootC).getD [Component.curDir] <+:
      rootC ++ [Component.normal (bytesOf "normal.txt")] :=
  C10_matches_under_root fsSingle
    (rootC ++ [Component.normal (bytesOf "normal.txt")]) (some rootC) 10
    [rootC ++ [Component.normal (bytesOf "normal.txt")]] rfl
    (rootC ++ [Component.normal (bytesOf "normal.txt")]) (by simp)

/-- A valid `Normal` segment name as produced by `Path::components()`:
nonempty, not `.`, not `..`, and free of the `/` separator byte. -/
def validName (n : List Nat) : Bool :=
  decide (n ≠ []) && decide (n ≠ [0x2E]) && decide (n ≠ [0x2E, 0x2E]) &&
    !(n.contains 0x2F)

/-- Components that may appear after the head of a parsed path: parent
markers and well-formed normal segments (root and current-directory markers
only ever appear first). -/
def tailComponentOk : Component → Bool
  | .parentDir => true
  | .normal n => validName n
  | _ => false

/-- Any component may head a parsed path, with normal segments well-formed. -/
def headComponentOk : Component → Bool
  | .normal n => validName n
  | _ => true

/-- Component lists that arise as `Path::components()` of some byte string:
root/current-directory markers only at the head, normal names well-formed.
-/
def validPath : List Component → Bool
  | [] => true
  | c :: rest => headComponentOk c && rest.all tailComponentOk

/-- All components are `Normal` segments. -/
def allNormal : List Component → Bool
  | [] => true
  | .normal _ :: rest => allNormal rest
  | _ :: _ => false

/-- Shape of the tail of a `resolve_parents` result after a leading marker:
at most one parent marker directly after the marker, then only normal
segments. -/
def restNF : List Component → Bool
  | [] => true
  | .parentDir :: rest => allNormal rest
  | .normal _ :: rest => allNormal rest
  | _ :: _ => false

/-- Normal forms of `resolve_parents`: an optional leading root or
current-directory marker, then at most one parent marker (only possible
directly after such a marker), then only normal segments. -/
def normalForm : List Component → Bool
  | [] => true
  | .rootDir :: rest => restNF rest
  | .curDir :: rest => restNF rest
  | .parentDir :: _ => false
  | .normal _ :: rest => allNormal rest

theorem allNormal_append {l : List Component} (h : allNormal l = true) (n : List Nat) :
    allNormal (l ++ [.normal n]) = true := by
  induction l with
  | nil => rfl
  | cons c rest ih =>
    cases c with
    | normal m => exact ih (by simpa [allNormal] using h)
    | rootDir => simp [allNormal] at h
    | curDir => simp [allNormal] at h
    | parentDir => simp [allNormal] at h

theorem allNormal_dropLast {l : List Component} (h : allNormal l = true) :
    allNormal l.dropLast = true := by
  induction l with
  | nil => rfl
  | cons c rest ih =>
    cases rest with
    | nil => rfl
    | cons d rest' =>
      cases c with
      | normal m =>
        rw [List.dropLast_cons₂]
        simpa [allNormal] using ih (by simpa [allNormal] using h)
      | rootDir => simp [allNormal] at h
      | curDir => simp [allNormal] at h
      | parentDir => simp [allNormal] at h

/-- Folding any run of normal segments just appends them. -/
theorem foldl_normals {cs : List Component} (h : allNormal cs = true) :
    ∀ res, cs.foldl resolveParentsStep res = res ++ cs := by
  induction cs with
  | nil => intro res; simp
  | cons c rest ih =>
    intro res
    cases c with
    | normal m =>
      have hstep : resolveParentsStep res (.normal m) = res ++ [.normal m] := by
        simp [resolveParentsStep]
      simp only [List.foldl_cons, hstep]
      rw [ih (by simpa [allNormal] using h)]
      simp
    | rootDir => simp [allNormal] at h
    | curDir => simp [allNormal] at h
    | parentDir => simp [allNormal] at h

theorem restNF_append {rest : List Component} (h : restNF rest = true) (n : List Nat) :
    restNF (rest ++ [.normal n]) = true := by
  cases rest with
  | nil => rfl
  | cons c rest' =>
    cases c with
    | parentDir => simpa [restNF] using allNormal_append (by simpa [restNF] using h) n
    | normal m => simpa [restNF] using allNormal_append (by simpa [restNF] using h) n
    | rootDir => simp [restNF] at h
    | curDir => simp [restNF] at h

theorem normalForm_append_normal {res : List Component} (h : normalForm res = true)
    (n : List Nat) : normalForm (res ++ [.normal n]) = true := by
  cases res with
  | nil => rfl
  | cons c rest =>
    cases c with
    | rootDir => simpa [normalForm] using restNF_append (by simpa [normalForm] using h) n
    | curDir => simpa [normalForm] using restNF_append (by simpa [normalForm] using h) n
    | parentDir => simp [normalForm] at h
    | normal m => simpa [normalForm] using allNormal_append (by simpa [normalForm] using h) n

theorem restNF_dropLast {rest : List Component} (h : restNF rest = true) :
    restNF rest.dropLast = true := by
  cases rest with
  | nil => rfl
  | cons c rest' =>
    cases rest' with
    | nil => rfl
    | cons d rest'' =>
      rw [List.dropLast_cons₂]
      cases c with
      | parentDir =>
        simpa [restNF] using allNormal_dropLast (by simpa [restNF] using h)
      | normal m =>
        simpa [restNF] using allNormal_dropLast (by simpa [restNF] using h)
      | rootDir => simp [restNF] at h
      | curDir => simp [restNF] at h

theorem normalForm_pop {res : List Component} (h : normalForm res = true) :
    normalForm (pathPop res) = true := by
  unfold pathPop
  by_cases hr : res = [Component.rootDir]
  · rw [if_pos hr, hr]; rfl
  · rw [if_neg hr]
    cases res with
    | nil => rfl
    | cons c rest =>
      cases rest with
      | nil => cases c <;> rfl
      | cons d rest' =>
        rw [List.dropLast_cons₂]
        cases c with
        | rootDir =>
          simpa [normalForm] using restNF_dropLast (by simpa [normalForm] using h)
        | curDir =>
          simpa [normalForm] using restNF_dropLast (by simpa [normalForm] using h)
        | parentDir => simp [normalForm] at h
        | normal m =>
          simpa [normalForm] using allNormal_dropLast (by simpa [normalForm] using h)

/-- One loop step of `resolve_parents` keeps the result in normal form, for
any component a parsed path can contain past its head. -/
theorem normalForm_step {res : List Component} (h : normalForm res = true)
    {c : Component} (hc : c = .parentDir ∨ ∃ n, c = .normal n) :
    normalForm (resolveParentsStep res c) = true := by
  rcases hc with rfl | ⟨n, rfl⟩
  · unfold resolveParentsStep
    by_cases hroot : res = [Component.rootDir]
    · subst hroot; decide
    · by_cases hcur : res = [Component.curDir]
      · subst hcur; decide
      · rw [if_pos ⟨rfl, hroot, hcur⟩]
        exact normalForm_pop h
  · have : resolveParentsStep res (.normal n) = res ++ [.normal n] := by
      simp [resolveParentsStep]
    rw [this]
    exact normalForm_append_normal h n

theorem normalForm_foldl {cs : List Component} (hcs : cs.all tailComponentOk = true) :
    ∀ res, normalForm res = true →
      normalForm (cs.foldl resolveParentsStep res) = true := by
  induction cs with
  | nil => intro res h; simpa
  | cons c rest ih =>
    intro res h
    simp only [List.all_cons, Bool.and_eq_true] at hcs
    refine ih hcs.2 _ (normalForm_step h ?_)
    cases c with
    | parentDir => exact Or.inl rfl
    | normal n => exact Or.inr ⟨n, rfl⟩
    | rootDir => simp [tailComponentOk] at hcs
    | curDir => simp [tailComponentOk] at hcs

/-- The normalizer sends every parsed path to a normal form. -/
theorem normalForm_resolve_parents {p : List Component} (h : validPath p = true) :
    normalForm (resolve_parents p) = true := by
  cases p with
  | nil => rfl
  | cons c rest =>
    simp only [validPath, Bool.and_eq_true] at h
    unfold resolve_parents
    rw [List.foldl_cons]
    refine normalForm_foldl h.2 _ ?_
    cases c <;> rfl

/-- Normal forms are fixed points of the normalizer. -/
theorem resolve_parents_fixed {l : List Component} (h : normalForm l = true) :
    resolve_parents l = l := by
  cases l with
  | nil => rfl
  | cons c rest =>
    unfold resolve_parents
    rw [List.foldl_cons]
    cases c with
    | rootDir =>
      have hstep : resolveParentsStep [] Component.rootDir = [Component.rootDir] := rfl
      rw [hstep]
      cases rest with
      | nil => rfl
      | cons d rest' =>
        cases d with
        | parentDir =>
          rw [List.foldl_cons]
          have hstep2 : resolveParentsStep [Component.rootDir] Component.parentDir =
              [Component.rootDir, Component.parentDir] := by decide
          rw [hstep2]
          have hn : allNormal rest' = true := by simpa [normalForm, restNF] using h
          simpa using foldl_normals hn [Component.rootDir, Component.parentDir]
        | normal m =>
          have hn : allNormal (Component.normal m :: rest') = true := by
            simpa [normalForm, restNF, allNormal] using h
          simpa using foldl_normals hn [Component.rootDir]
        | rootDir => simp [normalForm, restNF] at h
        | curDir => simp [normalForm, restNF] at h
    | curDir =>
      have hstep : resolveParentsStep [] Component.curDir = [Component.curDir] := rfl
      rw [hstep]
      cases rest with
      | nil => rfl
      | cons d rest' =>
        cases d with
        | parentDir =>
          rw [List.foldl_cons]
          have hstep2 : resolveParentsStep [Component.curDir] Component.parentDir =
              [Component.curDir, Component.parentDir] := by decide
          rw [hstep2]
          have hn : allNormal rest' = true := by simpa [normalForm, restNF] using h
          simpa using foldl_normals hn [Component.curDir, Component.parentDir]
        | normal m =>
          have hn : allNormal (Component.normal m :: rest') = true := by
            simpa [normalForm, restNF, allNormal] using h
          simpa using foldl_normals hn [Component.curDir]
        | rootDir => simp [normalForm, restNF] at h
        | curDir => simp [normalForm, restNF] at h
    | parentDir => simp [normalForm] at h
    | normal m =>
      have hn : allNormal (Component.normal m :: rest) = true := by
        simpa [normalForm, allNormal] using h
      have hstep : resolveParentsStep [] (Component.normal m) = [Component.normal m] := rfl
      rw [hstep]
      have := foldl_normals (by simpa [allNormal] using hn : allNormal rest = true)
        [Component.normal m]
      simpa using this

/-- C9: the normalizer is idempotent — on every parsed path it lands in the
normal-form set (optional leading marker, at most one parent marker kept
directly after a root or current-directory marker, then plain segments), and
every normal form is a fixed point. -/
theorem C9_normalize_idempotent (p : List Component) (h : validPath p = true) :
    resolve_parents (resolve_parents p) = resolve_parents p :=
  resolve_parents_fixed (normalForm_resolve_parents h)

/-- C9 witness: idempotence instantiated at the parse of `"/a/../../b"`. -/
theorem C9_witness :
    resolve_parents (resolve_parents (pathComponents (bytesOf "/a/../../b"))) =
      resolve_parents (pathComponents (bytesOf "/a/../../b")) :=
  C9_normalize_idempotent (pathComponents (bytesOf "/a/../../b")) (by decide)

theorem unitCmp_eq_iff (u v : CharOrByte) : unitCmp u v = .eq ↔ u = v := by
  cases u <;> cases v <;>
    simp [unitCmp, Nat.compare_eq_eq, CharOrByte.char.injEq, CharOrByte.byte.injEq]

theorem unitCmp_lt_trans {u v w : CharOrByte} (h1 : unitCmp u v = .lt)
    (h2 : unitCmp v w = .lt) : unitCmp u w = .lt := by
  cases u <;> cases v <;> cases w <;>
    simp_all [unitCmp, Nat.compare_eq_lt] <;> omega

theorem listCmp_cons (f : α → α → Ordering) (x y : α) (xs ys : List α) :
    listCmp f (x :: xs) (y :: ys) = (f x y).then (listCmp f xs ys) := by
  simp only [listCmp]
  cases f x y <;> rfl

theorem listCmp_eq_iff (f : α → α → Ordering)
    (hf : ∀ x y, f x y = .eq ↔ x = y) :
    ∀ l r : List α, listCmp f l r = .eq ↔ l = r := by
  intro l
  induction l with
  | nil => intro r; cases r <;> simp [listCmp]
  | cons x xs ih =>
    intro r
    cases r with
    | nil => simp [listCmp]
    | cons y ys =>
      rw [listCmp_cons, Ordering.then_eq_eq]
      simp [hf, ih]

theorem listCmp_lt_trans (f : α → α → Ordering)
    (hf : ∀ x y, f x y = .eq ↔ x = y)
    (ht : ∀ x y z, f x y = .lt → f y z = .lt → f x z = .lt) :
    ∀ l m r : List α, listCmp f l m = .lt → listCmp f m r = .lt →
      listCmp f l r = .lt := by
  intro l
  induction l with
  | nil =>
    intro m r h1 h2
    cases m with
    | nil => simp [listCmp] at h1
    | cons y ys =>
      cases r with
      | nil => simp [listCmp] at h2
      | cons z zs => simp [listCmp]
  | cons x xs ih =>
    intro m r h1 h2
    cases m with
    | nil => simp [listCmp] at h1
    | cons y ys =>
      cases r with
      | nil => simp [listCmp] at h2
      | cons z zs =>
        rw [listCmp_cons, Ordering.then_eq_lt] at h1 h2 ⊢
        rcases h1 with h1 | ⟨h1e, h1r⟩
        · rcases h2 with h2 | ⟨h2e, h2r⟩
          · exact Or.inl (ht x y z h1 h2)
          · obtain rfl : y = z := (hf y z).1 h2e
            exact Or.inl h1
        · obtain rfl : x = y := (hf x y).1 h1e
          rcases h2 with h2 | ⟨h2e, h2r⟩
          · exact Or.inl h2
          · exact Or.inr ⟨h2e, ih ys zs h1r h2r⟩

/-- A component whose decomposition does not hit the panic branch. -/
def componentDecodes : Component → Bool
  | .normal n => (osstr_chars n).isSome
  | _ => true

/-- Every normal component of the path decomposes without panicking. -/
def pathDecodes (p : List Component) : Bool := p.all componentDecodes

/-- The sort key a component contributes under the insensitive order:
its discriminant rank, and (for normal components) its case-folded unit
stream. -/
def componentKey (c : Component) : Nat × List CharOrByte :=
  match c with
  | .normal n => (3, (osstr_chars_lowercased n).getD [])
  | c => (componentRank c, [])

/-- Lexicographic comparison of component keys. -/
def keyCmp (a b : Nat × List CharOrByte) : Ordering :=
  (compare a.1 b.1).then (listCmp unitCmp a.2 b.2)

theorem keyCmp_eq_iff (a b : Nat × List CharOrByte) :
    keyCmp a b = .eq ↔ a = b := by
  rw [keyCmp, Ordering.then_eq_eq, Nat.compare_eq_eq,
    listCmp_eq_iff unitCmp unitCmp_eq_iff]
  exact ⟨fun ⟨h1, h2⟩ => Prod.ext h1 h2, fun h => ⟨congrArg Prod.fst h, congrArg Prod.snd h⟩⟩

theorem keyCmp_lt_trans (a b c : Nat × List CharOrByte)
    (h1 : keyCmp a b = .lt) (h2 : keyCmp b c = .lt) : keyCmp a c = .lt := by
  rw [keyCmp, Ordering.then_eq_lt] at h1 h2 ⊢
  rcases h1 with h1 | ⟨h1e, h1s⟩
  · rcases h2 with h2 | ⟨h2e, h2s⟩
    · exact Or.inl (Nat.compare_eq_lt.2
        (Nat.lt_trans (Nat.compare_eq_lt.1 h1) (Nat.compare_eq_lt.1 h2)))
    · rw [Nat.compare_eq_eq.1 h2e] at h1
      exact Or.inl h1
  · rw [Nat.compare_eq_eq.1 h1e]
    rcases h2 with h2 | ⟨h2e, h2s⟩
    · exact Or.inl h2
    · exact Or.inr ⟨h2e,
        listCmp_lt_trans unitCmp unitCmp_eq_iff (fun _ _ _ => unitCmp_lt_trans)
          a.2 b.2 c.2 h1s h2s⟩

/-- Under successful decomposition, comparing one component pair computes
the key comparison. -/
theorem componentCmp_eq_keyCmp {l r : Component}
    (hl : componentDecodes l = true) (hr : componentDecodes r = true) :
    componentCmp l r = some (keyCmp (componentKey l) (componentKey r)) := by
  cases l with
  | normal a =>
    cases r with
    | normal b =>
      simp only [componentDecodes, Option.isSome_iff_exists] at hl hr
      obtain ⟨ca, hca⟩ := hl
      obtain ⟨cb, hcb⟩ := hr
      have h33 : compare (3 : Nat) 3 = Ordering.eq := rfl
      simp [componentCmp, compare_osstr_case_insensitive, osstr_chars_lowercased,
        componentKey, keyCmp, hca, hcb, Ordering.then, h33]
    | rootDir => rfl
    | curDir => rfl
    | parentDir => rfl
  | rootDir => cases r <;> rfl
  | curDir => cases r <;> rfl
  | parentDir => cases r <;> rfl

/-- Under successful decomposition the whole-path insensitive comparison
computes the lexicographic comparison of the component key lists. -/
theorem insensitiveCmp_eq_keys :
    ∀ {a b : List Component}, pathDecodes a = true → pathDecodes b = true →
      insensitiveCmp a b =
        some (listCmp keyCmp (a.map componentKey) (b.map componentKey)) := by
  intro a
  induction a with
  | nil => intro b _ _; cases b <;> rfl
  | cons x xs ih =>
    intro b ha hb
    cases b with
    | nil => rfl
    | cons y ys =>
      simp only [pathDecodes, List.all_cons, Bool.and_eq_true] at ha hb
      have hx := componentCmp_eq_keyCmp ha.1 hb.1
      have hrec := ih (b := ys) ha.2 hb.2
      simp only [insensitiveCmp, hx, Option.bind_eq_bind, Option.some_bind,
        List.map_cons, listCmp_cons]
      by_cases he : keyCmp (componentKey x) (componentKey y) = Ordering.eq
      · simp [he, hrec, Ordering.then]
      · cases ho : keyCmp (componentKey x) (componentKey y) <;>
          simp_all [Ordering.then]

/-- C8 counterexample: for the single-component path `中` (a valid
three-byte UTF-8 name), comparing the path with itself panics, so none of
`a < b`, `a == b`, `a > b` holds at `a = b` = that path — the order is not
total on all paths. -/
theorem C8_counterexample_panic :
    ¬ (insensitiveCmp [Component.normal [0xE4, 0xB8, 0xAD]]
        [Component.normal [0xE4, 0xB8, 0xAD]] = some Ordering.lt ∨
       insensitiveCmp [Component.normal [0xE4, 0xB8, 0xAD]]
        [Component.normal [0xE4, 0xB8, 0xAD]] = some Ordering.eq ∨
       insensitiveCmp [Component.normal [0xE4, 0xB8, 0xAD]]
        [Component.normal [0xE4, 0xB8, 0xAD]] = some Ordering.gt) := by
  decide

/-- C8 amended: restricted to paths whose components decompose without
hitting the panic branch, the case-insensitive comparison is a total order:
exactly one of less/equal/greater holds for every pair, it is transitive,
within a stream any decoded scalar value sorts before any raw byte at the
same position, and `"abc" < "def"` case-insensitively. -/
theorem C8_total_order :
    (∀ a b : List Component, pathDecodes a = true → pathDecodes b = true →
      (insensitiveCmp a b = some Ordering.lt ∧
        insensitiveCmp a b ≠ some Ordering.eq ∧
        insensitiveCmp a b ≠ some Ordering.gt) ∨
      (insensitiveCmp a b = some Ordering.eq ∧
        insensitiveCmp a b ≠ some Ordering.lt ∧
        insensitiveCmp a b ≠ some Ordering.gt) ∨
      (insensitiveCmp a b = some Ordering.gt ∧
        insensitiveCmp a b ≠ some Ordering.lt ∧
        insensitiveCmp a b ≠ some Ordering.eq)) ∧
    (∀ a b c : List Component, pathDecodes a = true → pathDecodes b = true →
      pathDecodes c = true →
      insensitiveCmp a b = some Ordering.lt →
      insensitiveCmp b c = some Ordering.lt →
      insensitiveCmp a c = some Ordering.lt) ∧
    (∀ c b : Nat, unitCmp (CharOrByte.char c) (CharOrByte.byte b) = Ordering.lt) ∧
    insensitiveCmp (pathComponents (bytesOf "abc")) (pathComponents (bytesOf "def")) =
      some Ordering.lt := by
  refine ⟨?_, ?_, fun _ _ => rfl, rfl⟩
  · intro a b ha hb
    rw [insensitiveCmp_eq_keys ha hb]
    cases listCmp keyCmp (a.map componentKey) (b.map componentKey) with
    | lt => exact Or.inl ⟨rfl, by simp, by simp⟩
    | eq => exact Or.inr (Or.inl ⟨rfl, by simp, by simp⟩)
    | gt => exact Or.inr (Or.inr ⟨rfl, by simp, by simp⟩)
  · intro a b c ha hb hc h1 h2
    rw [insensitiveCmp_eq_keys ha hb] at h1
    rw [insensitiveCmp_eq_keys hb hc] at h2
    rw [insensitiveCmp_eq_keys ha hc]
    have := listCmp_lt_trans keyCmp keyCmp_eq_iff keyCmp_lt_trans
      (a.map componentKey) (b.map componentKey) (c.map componentKey)
      (by simpa using h1) (by simpa using h2)
    simp [this]

/-- C8 witness: trichotomy and transitivity instantiated at the decodable
single-component paths `a`, `b`, `c`. -/
theorem C8_witness :
    insensitiveCmp [Component.normal (bytesOf "a")] [Component.normal (bytesOf "c")] =
      some Ordering.lt :=
  C8_total_order.2.1 [Component.normal (bytesOf "a")] [Component.normal (bytesOf "b")]
    [Component.normal (bytesOf "c")] (by decide) (by decide) (by decide) rfl rfl

set_option maxRecDepth 8000 in
theorem utf8CharLen_ascii : ∀ b < 0x80, utf8CharLen b = some 1 := by decide

set_option maxRecDepth 8000 in
theorem utf8CharLen_twoByte : ∀ b < 0x100, 0xC0 ≤ b → utf8CharLen b = some 2 := by
  decide

/-- Decoding inverts the two-byte encoding for scalars in `[0x80, 0x800)`. -/
theorem decodeUtf8_twoByte {c : Nat} (h1 : 0x80 ≤ c) (h2 : c < 0x800) :
    decodeUtf8 [0xC0 + c / 64, 0x80 + c % 64] = some c := by
  have hcond : (0xC2 ≤ 0xC0 + c / 64 && (0xC0 + c / 64 ≤ 0xDF) &&
      isCont (0x80 + c % 64)) = true := by
    simp only [isCont, Bool.and_eq_true, decide_eq_true_eq]
    omega
  simp only [decodeUtf8, hcond, if_true, Option.some.injEq]
  omega

/-- The decomposer inverts UTF-8 encoding for strings of scalar values below
`0x800` (one- and two-byte encodings — exactly the range on which the
source's buggy length detection still behaves): every encoded character is
emitted back as its scalar value. -/
theorem osstr_chars_utf8Encode :
    ∀ {s : List Nat}, (∀ c ∈ s, c < 0x800) →
      osstr_chars (utf8Encode s) = some (s.map CharOrByte.char) := by
  intro s
  induction s with
  | nil => intro _; rfl
  | cons c rest ih =>
    intro h
    have hc : c < 0x800 := h c (List.mem_cons_self c rest)
    have hrest := ih fun x hx => h x (List.mem_cons_of_mem c hx)
    simp only [osstr_chars] at hrest ⊢
    by_cases hsmall : c < 0x80
    · have henc : utf8Encode (c :: rest) = c :: utf8Encode rest := by
        simp [utf8Encode, utf8EncodeChar, hsmall]
      have hlen := utf8CharLen_ascii c hsmall
      have hdec : decodeUtf8 [c] = some c := by
        simp only [decodeUtf8, if_pos (by omega : c ≤ 0x7F)]
      rw [henc]
      simp only [List.length_cons, osstr_chars_go, hlen, hdec, hrest,
        Option.map_some', List.map_cons]
    · have henc : utf8Encode (c :: rest) =
          (0xC0 + c / 64) :: (0x80 + c % 64) :: utf8Encode rest := by
        simp only [utf8Encode, List.flatMap_cons, utf8EncodeChar,
          if_neg hsmall, if_pos hc, List.cons_append, List.nil_append]
      have hlen : utf8CharLen (0xC0 + c / 64) = some 2 :=
        utf8CharLen_twoByte (0xC0 + c / 64) (by omega) (by omega)
      have hdec := decodeUtf8_twoByte (Nat.not_lt.1 hsmall) hc
      rw [henc]
      simp only [List.length_cons, osstr_chars_go, hlen, hdec]
      rw [osstr_chars_go_adequate ((utf8Encode rest).length + 1)
        (utf8Encode rest).length (utf8Encode rest) (by omega) (by omega)]
      simp only [hrest, Option.map_some', List.map_cons]

theorem foldUnit_map_char (s : List Nat) :
    (s.map CharOrByte.char).flatMap fold_unit =
      (s.flatMap char_to_lowercase).map CharOrByte.char := by
  induction s with
  | nil => rfl
  | cons c rest ih =>
    simp only [List.map_cons, List.flatMap_cons, List.map_append, fold_unit, ih]

/-- The case-folded unit stream of an encoded scalar string is the folded
scalar string, all as char units. -/
theorem lowerStream_utf8Encode {s : List Nat} (h : ∀ c ∈ s, c < 0x800) :
    osstr_chars_lowercased (utf8Encode s) =
      some ((s.flatMap char_to_lowercase).map CharOrByte.char) := by
  rw [osstr_chars_lowercased, osstr_chars_utf8Encode h]
  simp only [Option.map_some', foldUnit_map_char]

set_option maxRecDepth 8000 in
theorem char_to_lowercase_lt : ∀ c < 0x100, ∀ d ∈ char_to_lowercase c, d < 0x100 := by
  decide

set_option maxRecDepth 8000 in
theorem char_to_lowercase_idem :
    ∀ c < 0x100, (char_to_lowercase c).flatMap char_to_lowercase =
      char_to_lowercase c := by
  decide

set_option maxRecDepth 8000 in
theorem char_to_uppercase_ascii_lt :
    ∀ c < 0x80, ∀ d ∈ char_to_uppercase c, d < 0x800 := by decide

set_option maxRecDepth 8000 in
theorem upper_then_lower_ascii :
    ∀ c < 0x80, (char_to_uppercase c).flatMap char_to_lowercase =
      char_to_lowercase c := by
  decide

theorem toLower_flatMap_idem :
    ∀ {s : List Nat}, (∀ c ∈ s, c < 0x100) →
      (s.flatMap char_to_lowercase).flatMap char_to_lowercase =
        s.flatMap char_to_lowercase := by
  intro s
  induction s with
  | nil => intro _; rfl
  | cons c rest ih =>
    intro h
    simp only [List.flatMap_cons, List.flatMap_append]
    rw [char_to_lowercase_idem c (h c (List.mem_cons_self c rest)),
      ih fun x hx => h x (List.mem_cons_of_mem c hx)]

theorem toUpper_then_lower_flatMap :
    ∀ {s : List Nat}, (∀ c ∈ s, c < 0x80) →
      (s.flatMap char_to_uppercase).flatMap char_to_lowercase =
        s.flatMap char_to_lowercase := by
  intro s
  induction s with
  | nil => intro _; rfl
  | cons c rest ih =>
    intro h
    simp only [List.flatMap_cons, List.flatMap_append]
    rw [upper_then_lower_ascii c (h c (List.mem_cons_self c rest)),
      ih fun x hx => h x (List.mem_cons_of_mem c hx)]

/-- C7 counterexample: for `s = "ß"` (scalar `U+00DF`), `toUpperCase(s)` is
`"SS"`, and the case-insensitive identity of `"ß"` is *not* that of `"SS"`:
`ß` folds to itself while `"SS"` folds to `"ss"`, and the comparison yields
`Greater`, not `Equal`. So the identity is not invariant under uppercasing
for every string. -/
theorem C7_counterexample_sharp_s :
    toUpperString [0xDF] = [0x53, 0x53] ∧
    compare_osstr_case_insensitive (utf8Encode [0xDF])
      (utf8Encode (toUpperString [0xDF])) = some Ordering.gt := by
  refine ⟨rfl, rfl⟩

/-- C7 amended: over Latin-1 scalar strings (where the decomposer succeeds
and the modelled case tables are exact), the identity is invariant under
`toLowerCase`; invariance under `toUpperCase` holds for ASCII strings and
for the pair `"É"`/`"é"` — but not for every string (see the `ß`
counterexample). -/
theorem C7_case_invariance :
    (∀ s : List Nat, (∀ c ∈ s, c < 0x100) →
      compare_osstr_case_insensitive (utf8Encode s)
        (utf8Encode (toLowerString s)) = some Ordering.eq) ∧
    (∀ s : List Nat, (∀ c ∈ s, c < 0x80) →
      compare_osstr_case_insensitive (utf8Encode s)
        (utf8Encode (toUpperString s)) = some Ordering.eq) ∧
    compare_osstr_case_insensitive (utf8Encode [0xC9]) (utf8Encode [0xE9]) =
      some Ordering.eq := by
  refine ⟨?_, ?_, rfl⟩
  · intro s hs
    have h800 : ∀ c ∈ s, c < 0x800 := fun c hc => Nat.lt_trans (hs c hc) (by norm_num)
    have hlow : ∀ c ∈ toLowerString s, c < 0x800 := by
      intro d hd
      rcases List.mem_flatMap.1 hd with ⟨c, hc, hdc⟩
      exact Nat.lt_trans (char_to_lowercase_lt c (hs c hc) d hdc) (by norm_num)
    rw [compare_osstr_case_insensitive, lowerStream_utf8Encode h800,
      lowerStream_utf8Encode hlow]
    simp only [Option.bind_eq_bind, Option.some_bind']
    rw [toLowerString, toLower_flatMap_idem hs,
      (listCmp_eq_iff unitCmp unitCmp_eq_iff _ _).2 rfl]
    rfl
  · intro s hs
    have h800 : ∀ c ∈ s, c < 0x800 := fun c hc => Nat.lt_trans (hs c hc) (by norm_num)
    have hup : ∀ c ∈ toUpperString s, c < 0x800 := by
      intro d hd
      rcases List.mem_flatMap.1 hd with ⟨c, hc, hdc⟩
      exact char_to_uppercase_ascii_lt c (hs c hc) d hdc
    rw [compare_osstr_case_insensitive, lowerStream_utf8Encode h800,
      lowerStream_utf8Encode hup]
    simp only [Option.bind_eq_bind, Option.some_bind']
    rw [toUpperString, toUpper_then_lower_flatMap hs,
      (listCmp_eq_iff unitCmp unitCmp_eq_iff _ _).2 rfl]
    rfl

/-- C7 witness: lowercase invariance at `"AÉ"` and uppercase invariance at
`"Ab"`. -/
theorem C7_witness :
    compare_osstr_case_insensitive (utf8Encode [0x41, 0xC9])
      (utf8Encode (toLowerString [0x41, 0xC9])) = some Ordering.eq ∧
    compare_osstr_case_insensitive (utf8Encode [0x41, 0x62])
      (utf8Encode (toUpperString [0x41, 0x62])) = some Ordering.eq :=
  ⟨C7_case_invariance.1 [0x41, 0xC9] (by decide),
   C7_case_invariance.2.1 [0x41, 0x62] (by decide)⟩
